import Mathlib

/-!
Verification of the sync-diff-inspector core (`sync_diff_inspector/diff.go` and
`sync_diff_inspector/continuous/validate.go`) against its specification.

The Go source is shallowly embedded: pure fragments become Lean functions,
database collaborators (row iterators, checksum queries, the binlog stream)
become explicit inputs, Go strings become Lean `String` manipulated through
character-list helpers so that every definition evaluates inside the kernel,
and Go panics / index-out-of-range faults become `Option`/`Except` failures.
-/

/- ---------------------------------------------------------------------------
String helpers mirroring the Go standard-library operations used by the source.
Go compares strings byte-wise; UTF-8 preserves code-point order, so comparing
`Char` lists is the same order.
--------------------------------------------------------------------------- -/

/-- Strict byte-wise (code-point-wise) comparison of character lists, the
order Go's `<` on strings implements. -/
def charListLt : List Char → List Char → Bool
  | [], [] => false
  | [], _ :: _ => true
  | _ :: _, [] => false
  | a :: as, b :: bs => if a < b then true else if b < a then false else charListLt as bs

/-- Go's `a < b` on strings. -/
def strLt (a b : String) : Bool := charListLt a.data b.data

/-- Whether `pat` occurs at the head of `s`. -/
def listStartsWith : List Char → List Char → Bool
  | _, [] => true
  | [], _ :: _ => false
  | a :: as, b :: bs => a = b && listStartsWith as bs

/-- Whether `pat` occurs anywhere inside `s`; Go's `strings.Contains`. -/
def listHasSub (pat : List Char) : List Char → Bool
  | [] => listStartsWith [] pat
  | c :: rest => listStartsWith (c :: rest) pat || listHasSub pat rest

/-- Go's `strings.Contains s pat`. -/
def strContains (s pat : String) : Bool := listHasSub pat.data s.data

/-- Whether `s` ends with `tail`; Go's `strings.HasSuffix`. -/
def strEndsWith (s tail : String) : Bool :=
  listStartsWith s.data.reverse tail.data.reverse

/-- Go's `strings.TrimRight s cutset`: remove trailing characters that are
members of the cutset (not suffix removal). -/
def goTrimRight (s : String) (cut : List Char) : String :=
  ⟨(s.data.reverse.dropWhile (fun c => cut.contains c)).reverse⟩

/-- Split `s` before the first occurrence of `c`: the part before the
separator and, when a separator was found, the remainder after it. -/
def breakOnChar (c : Char) : List Char → List Char × Option (List Char)
  | [] => ([], none)
  | a :: as =>
    if a = c then ([], some as)
    else
      let r := breakOnChar c as
      (a :: r.1, r.2)

/-- Go's `strings.SplitN s (String.singleton c) n` for `n ≥ 1`: at most `n`
fields, the last field holding the unsplit remainder. -/
def splitNChar (c : Char) : Nat → List Char → List (List Char)
  | 0, _ => []
  | 1, s => [s]
  | n + 2, s =>
    match breakOnChar c s with
    | (pre, none) => [pre]
    | (pre, some rest) => pre :: splitNChar c (n + 1) rest

/-- Go's `strings.Join xs sep`. -/
def strJoin (sep : String) : List String → String
  | [] => ""
  | [s] => s
  | s :: rest => ⟨s.data ++ sep.data ++ (strJoin sep rest).data⟩

/- ---------------------------------------------------------------------------
Checksum comparison (`Diff.compareChecksumAndGetCount`, diff.go:982-1007).
The two `GetCountAndCrc32` collaborator calls are inputs.
--------------------------------------------------------------------------- -/

/-- Result of `Source.GetCountAndCrc32` for one side (`source.ChecksumInfo`). -/
structure ChecksumInfo where
  Count : Int
  Checksum : Int
  Err : Option String
deriving DecidableEq, Repr

/-- Embedding of `Diff.compareChecksumAndGetCount`: the upstream and
downstream checksum query results are passed in, the returned triple is
`(isEqual, count, error)` exactly as the Go function computes it. -/
def compareChecksumAndGetCount (upstreamInfo downstreamInfo : ChecksumInfo) :
    Bool × Int × Option String :=
  if upstreamInfo.Err ≠ none then (false, -1, upstreamInfo.Err)
  else if downstreamInfo.Err ≠ none then (false, -1, downstreamInfo.Err)
  else if upstreamInfo.Count = downstreamInfo.Count ∧
      upstreamInfo.Checksum = downstreamInfo.Checksum then
    (true, upstreamInfo.Count, none)
  else (false, upstreamInfo.Count, none)

/- ---------------------------------------------------------------------------
Continuous-mode `IN` query builder (`Cond.GetWhere`, validate.go:38-55).
A Go panic (the explicit `panic("should be one")` for a multi-column primary
key, and the index-out-of-range fault of `pk.Columns[0]` on an empty column
list) is embedded as `none`.
--------------------------------------------------------------------------- -/

/-- Column of an index (`model.ColumnInfo`, name only). -/
structure ColumnInfo where
  name : String
deriving DecidableEq, Repr

/-- Primary-key index (`model.IndexInfo`, columns only). -/
structure IndexInfo where
  columns : List ColumnInfo
deriving DecidableEq, Repr

/-- The table description the continuous validator needs
(`common.TableDiff`, primary key only). -/
structure TableDiffC where
  primaryKey : IndexInfo
deriving DecidableEq, Repr

/-- Embedding of `continuous.Cond`. -/
structure Cond where
  Table : TableDiffC
  PkValues : List (List String)
deriving DecidableEq, Repr

/-- The comma-separated placeholder list the builder loop writes: one `?` per
entry of `PkValues`, separated by `", "`. -/
def placeholderList (n : Nat) : String :=
  strJoin ", " (List.replicate n "?")

/-- Embedding of `Cond.GetWhere`. Returns `none` where the Go method panics:
when the primary key has more than one column (explicit panic) and when it has
no column at all (`pk.Columns[0]` index-out-of-range). -/
def Cond.GetWhere (c : Cond) : Option String :=
  let cols := c.Table.primaryKey.columns
  if cols.length > 1 then none
  else
    match cols with
    | [] => none
    | col :: _ =>
      some ⟨col.name.data ++ " in (".data ++ (placeholderList c.PkValues.length).data ++ ")".data⟩

/- ---------------------------------------------------------------------------
Theorems
--------------------------------------------------------------------------- -/

/-- C7: `compareChecksumAndGetCount` returns `equal = true` iff both sides'
`GetCountAndCrc32` succeed and report equal `Count` and equal `Checksum`; if a
side reports an error it returns `(false, -1, that error)` (upstream checked
first); in the error-free case it returns the upstream count and no error. -/
theorem C7_compare_checksum (up down : ChecksumInfo) :
    ((compareChecksumAndGetCount up down).1 = true ↔
      up.Err = none ∧ down.Err = none ∧ up.Count = down.Count ∧ up.Checksum = down.Checksum) ∧
    (up.Err ≠ none → compareChecksumAndGetCount up down = (false, -1, up.Err)) ∧
    (up.Err = none → down.Err ≠ none → compareChecksumAndGetCount up down = (false, -1, down.Err)) ∧
    (up.Err = none → down.Err = none →
      (compareChecksumAndGetCount up down).2.1 = up.Count ∧
      (compareChecksumAndGetCount up down).2.2 = none) := by
  unfold compareChecksumAndGetCount
  by_cases hu : up.Err = none
  · by_cases hd : down.Err = none
    · by_cases he : up.Count = down.Count ∧ up.Checksum = down.Checksum
      · simp [hu, hd, he]
      · simp only [hu, hd, he]
        simp [he, hu, hd]
    · simp [hu, hd]
  · simp [hu]

/-- Concrete instantiation of `C7_compare_checksum`: equal sides with no
errors compare equal and return the upstream count. -/
theorem C7_compare_checksum_witness :
    (compareChecksumAndGetCount ⟨5, 7, none⟩ ⟨5, 7, none⟩).1 = true ∧
    (compareChecksumAndGetCount ⟨5, 7, none⟩ ⟨5, 7, none⟩).2.1 = 5 := by
  refine ⟨((C7_compare_checksum ⟨5, 7, none⟩ ⟨5, 7, none⟩).1).2 (by simp), ?_⟩
  exact ((C7_compare_checksum ⟨5, 7, none⟩ ⟨5, 7, none⟩).2.2.2 rfl rfl).1

/-- C9 counterexample: with a primary key that has no column at all,
`GetWhere` also panics (index out of range on `pk.Columns[0]`), although the
key does not have more than one column — so "panics iff more than one column"
fails. -/
theorem C9_getwhere_counterexample :
    Cond.GetWhere ⟨⟨⟨[]⟩⟩, [["1"]]⟩ = none ∧
    ¬ ((⟨⟨⟨[]⟩⟩, [["1"]]⟩ : Cond).Table.primaryKey.columns.length > 1) := by
  constructor
  · rfl
  · decide

/-- C9 (amended): `GetWhere` panics iff the primary key does not have exactly
one column (more than one hits the explicit panic, zero hits the index
out-of-range); for a single-column key it returns
`"<pk column> in (" ++ one "?" per PkValues entry, comma-separated ++ ")"`. -/
theorem C9_getwhere_amended (c : Cond) :
    (c.GetWhere = none ↔ c.Table.primaryKey.columns.length ≠ 1) ∧
    (∀ col, c.Table.primaryKey.columns = [col] →
      c.GetWhere =
        some ⟨col.name.data ++ " in (".data ++
          (placeholderList c.PkValues.length).data ++ ")".data⟩) := by
  obtain ⟨⟨⟨cols⟩⟩, pkv⟩ := c
  constructor
  · unfold Cond.GetWhere
    match cols with
    | [] => simp
    | [col] => simp
    | a :: b :: rest => simp [Nat.succ_lt_succ]
  · intro col hcols
    simp only at hcols
    subst hcols
    rfl

/-- Concrete instantiation of `C9_getwhere_amended`: a single-column primary
key named `id` with two PK value rows yields `id in (?, ?)`. -/
theorem C9_getwhere_witness :
    Cond.GetWhere ⟨⟨⟨[⟨"id"⟩]⟩⟩, [["1"], ["2"]]⟩ = some "id in (?, ?)" := by
  have h := (C9_getwhere_amended ⟨⟨⟨[⟨"id"⟩]⟩⟩, [["1"], ["2"]]⟩).2 ⟨"id"⟩ rfl
  rw [h]
  rfl

/- ---------------------------------------------------------------------------
Row reconciler (`Diff.compareRows`, diff.go:1159-1268).

Row iterators on the two sides become lists of rows; `utils.CompareData` (a
collaborator: per its contract it reports full-row equality plus the ordering
of the unique order key, one of `-1 / 0 / 1`, here `Ordering`) is an abstract
parameter. A produced fix SQL string is abstracted to the kind of DML passed
to `GenerateFixSQL`.
--------------------------------------------------------------------------- -/

/-- Kind of fix DML handed to `Source.GenerateFixSQL`. -/
inductive FixKind
  | insertFix
  | deleteFix
  | replaceFix
deriving DecidableEq, Repr

/-- The fields of a `ChunkDML` that `compareRows` fills, together with the
equality flag it returns. -/
structure DMLResult where
  sqls : List FixKind
  rowAdd : Nat
  rowDelete : Nat
  equal : Bool
deriving DecidableEq, Repr

/-- Embedding of the merge loop of `Diff.compareRows` over the two ordered row
streams. `cmp u d` is `utils.CompareData`: full equality flag and order-key
comparison. Each branch mirrors one arm of the Go loop: upstream exhausted
deletes the downstream rest, downstream exhausted inserts the upstream rest,
`eq` advances both, `cmp = 1` deletes downstream, `cmp = -1` inserts upstream,
`cmp = 0` replaces and advances both. -/
def compareRows {Row : Type} (cmp : Row → Row → Bool × Ordering) :
    List Row → List Row → DMLResult
  | [], ds =>
    { sqls := ds.map (fun _ => FixKind.deleteFix), rowAdd := 0,
      rowDelete := ds.length, equal := ds.isEmpty }
  | u :: us, [] =>
    { sqls := (u :: us).map (fun _ => FixKind.insertFix), rowAdd := (u :: us).length,
      rowDelete := 0, equal := false }
  | u :: us, d :: ds =>
    match cmp u d with
    | (true, _) => compareRows cmp us ds
    | (false, Ordering.gt) =>
      let r := compareRows cmp (u :: us) ds
      { sqls := FixKind.deleteFix :: r.sqls, rowAdd := r.rowAdd,
        rowDelete := r.rowDelete + 1, equal := false }
    | (false, Ordering.lt) =>
      let r := compareRows cmp us (d :: ds)
      { sqls := FixKind.insertFix :: r.sqls, rowAdd := r.rowAdd + 1,
        rowDelete := r.rowDelete, equal := false }
    | (false, Ordering.eq) =>
      let r := compareRows cmp us ds
      { sqls := FixKind.replaceFix :: r.sqls, rowAdd := r.rowAdd + 1,
        rowDelete := r.rowDelete + 1, equal := false }
termination_by us ds => us.length + ds.length

/-- Number of fixes of one kind in an emitted SQL list. -/
def countKind (k : FixKind) (sqls : List FixKind) : Nat :=
  (sqls.filter (fun s => s = k)).length


theorem countKind_cons_same (k : FixKind) (s : List FixKind) :
    countKind k (k :: s) = countKind k s + 1 := by
  simp [countKind, List.filter]

theorem countKind_cons_ne {x k : FixKind} (h : x ≠ k) (s : List FixKind) :
    countKind k (x :: s) = countKind k s := by
  simp [countKind, List.filter, h]

theorem countKind_map_const {Row : Type} (k c : FixKind) (ds : List Row) :
    countKind k (ds.map (fun _ => c)) = if c = k then ds.length else 0 := by
  induction ds with
  | nil => simp [countKind]
  | cons d ds ih =>
    by_cases h : c = k
    · subst h
      simp only [List.map, countKind_cons_same, ih]
      simp
    · simp only [List.map, countKind_cons_ne h, ih]
      simp [h]

/-- C3: for every pair of row streams, `compareRows` emits a `ChunkDML` with
`rowAdd` = INSERT fixes + REPLACE fixes and `rowDelete` = DELETE fixes +
REPLACE fixes, and returns `equal = true` iff no fix SQL was emitted. -/
theorem C3_compare_rows_counts {Row : Type} (cmp : Row → Row → Bool × Ordering)
    (us ds : List Row) :
    (compareRows cmp us ds).rowAdd =
      countKind FixKind.insertFix (compareRows cmp us ds).sqls +
      countKind FixKind.replaceFix (compareRows cmp us ds).sqls ∧
    (compareRows cmp us ds).rowDelete =
      countKind FixKind.deleteFix (compareRows cmp us ds).sqls +
      countKind FixKind.replaceFix (compareRows cmp us ds).sqls ∧
    ((compareRows cmp us ds).equal = true ↔ (compareRows cmp us ds).sqls = []) := by
  generalize hn : us.length + ds.length = n
  induction n using Nat.strong_induction_on generalizing us ds with
  | _ n ih =>
    have hrec : ∀ us' ds' : List Row, us'.length + ds'.length < n →
        (compareRows cmp us' ds').rowAdd =
          countKind FixKind.insertFix (compareRows cmp us' ds').sqls +
          countKind FixKind.replaceFix (compareRows cmp us' ds').sqls ∧
        (compareRows cmp us' ds').rowDelete =
          countKind FixKind.deleteFix (compareRows cmp us' ds').sqls +
          countKind FixKind.replaceFix (compareRows cmp us' ds').sqls ∧
        ((compareRows cmp us' ds').equal = true ↔ (compareRows cmp us' ds').sqls = []) :=
      fun us' ds' h => ih _ h us' ds' rfl
    subst hn
    match us, ds with
    | [], ds =>
      unfold compareRows
      simp only [countKind_map_const]
      refine ⟨by simp, by simp, ?_⟩
      cases ds <;> simp
    | u :: us, [] =>
      unfold compareRows
      simp only [countKind_map_const]
      simp
    | u :: us, d :: ds =>
      unfold compareRows
      rcases h : cmp u d with ⟨b, o⟩
      cases b
      · cases o
        · -- upstream key smaller: insert fix, advance upstream
          dsimp only
          have hl := hrec us (d :: ds) (by simp only [List.length_cons]; omega)
          refine ⟨?_, ?_, by simp⟩
          · rw [countKind_cons_same,
              countKind_cons_ne (by decide : FixKind.insertFix ≠ FixKind.replaceFix)]
            omega
          · rw [countKind_cons_ne (by decide : FixKind.insertFix ≠ FixKind.deleteFix),
              countKind_cons_ne (by decide : FixKind.insertFix ≠ FixKind.replaceFix)]
            exact hl.2.1
        · -- equal keys, differing payload: replace fix, advance both
          dsimp only
          have hl := hrec us ds (by simp only [List.length_cons]; omega)
          refine ⟨?_, ?_, by simp⟩
          · rw [countKind_cons_ne (by decide : FixKind.replaceFix ≠ FixKind.insertFix),
              countKind_cons_same]
            omega
          · rw [countKind_cons_ne (by decide : FixKind.replaceFix ≠ FixKind.deleteFix),
              countKind_cons_same]
            omega
        · -- downstream key smaller: delete fix, advance downstream
          dsimp only
          have hl := hrec (u :: us) ds (by simp only [List.length_cons]; omega)
          refine ⟨?_, ?_, by simp⟩
          · rw [countKind_cons_ne (by decide : FixKind.deleteFix ≠ FixKind.insertFix),
              countKind_cons_ne (by decide : FixKind.deleteFix ≠ FixKind.replaceFix)]
            exact hl.1
          · rw [countKind_cons_same,
              countKind_cons_ne (by decide : FixKind.deleteFix ≠ FixKind.replaceFix)]
            omega
      · dsimp only
        exact hrec us ds (by simp only [List.length_cons]; omega)

/- ---------------------------------------------------------------------------
Chunk consumption (`Diff.consume`, diff.go:828-873).

Inputs are the range's emptiness, the `ExportFixSQL` flag, the outcome of
`compareChecksumAndGetCount` on the range, and the two row streams of the
range ultimately passed to `compareRows` (`BinGenerate` only narrows that
range; a bisection failure merely records a table error and reuses the
original range, leaving the node state unchanged, so it does not appear
here). The output is the `ChunkDML` contents plus the boolean `consume`
returns.
--------------------------------------------------------------------------- -/

/-- Checkpoint node states (`checkpoints.SuccessState` and friends). -/
inductive NodeState
  | successState
  | failedState
  | ignoreState
deriving DecidableEq, Repr

/-- What one `consume` call produces: the node state and fix-SQL fields of the
emitted `ChunkDML`, and the equality flag it returns. -/
structure ConsumeOut where
  state : NodeState
  sqls : List FixKind
  rowAdd : Nat
  rowDelete : Nat
  isEqual : Bool
deriving DecidableEq, Repr

/-- Embedding of `Diff.consume`. An `Empty` range is marked `Ignore`; a
checksum error marks the chunk `Failed` and skips data compare; a checksum
mismatch runs row reconciliation only when `ExportFixSQL` is set, in which
case the state is `Failed`; otherwise the state stays `Success`. -/
def consume {Row : Type} (cmp : Row → Row → Bool × Ordering)
    (isEmpty exportFixSQL : Bool) (checksum : Except String (Bool × Int))
    (upRows dnRows : List Row) : ConsumeOut :=
  if isEmpty then ⟨NodeState.ignoreState, [], 0, 0, true⟩
  else
    match checksum with
    | Except.error _ => ⟨NodeState.failedState, [], 0, 0, false⟩
    | Except.ok (isEq, _count) =>
      if !isEq && exportFixSQL then
        let r := compareRows cmp upRows dnRows
        ⟨NodeState.failedState, r.sqls, r.rowAdd, r.rowDelete, isEq && r.equal⟩
      else ⟨NodeState.successState, [], 0, 0, isEq⟩

/-- C1 counterexample: a chunk whose checksum reports a mismatch without
error, with `ExportFixSQL` on, whose row comparison finds both sides equal
(it emits no fix), still gets state `Failed` — refuting "state is `Failed`
iff `sqls` is non-empty or the checksum stage errored". -/
theorem C1_consume_state_counterexample :
    (consume (fun _ _ : Unit => (true, Ordering.eq)) false true
      (Except.ok (false, 0)) [] []).state = NodeState.failedState ∧
    (consume (fun _ _ : Unit => (true, Ordering.eq)) false true
      (Except.ok (false, 0)) [] []).sqls = [] := by
  unfold consume
  rw [compareRows]
  exact ⟨rfl, rfl⟩

/-- C1 (amended): for every non-Empty range, the emitted node state is
`Failed` iff the checksum stage returned an error, or it reported a mismatch
and `ExportFixSQL` is enabled — independently of whether any fix SQL was
emitted. -/
theorem C1_consume_state_amended {Row : Type} (cmp : Row → Row → Bool × Ordering)
    (exportFixSQL : Bool) (checksum : Except String (Bool × Int))
    (upRows dnRows : List Row) :
    ((consume cmp false exportFixSQL checksum upRows dnRows).state = NodeState.failedState ↔
      (∃ e, checksum = Except.error e) ∨
      (∃ c, checksum = Except.ok (false, c) ∧ exportFixSQL = true)) := by
  unfold consume
  match checksum with
  | Except.error e => simp
  | Except.ok (isEq, c) =>
    cases isEq <;> cases exportFixSQL <;> simp

/-- Concrete instantiation of `C1_consume_state_amended`: a mismatching
checksum with fix-SQL export enabled yields a `Failed` node. -/
theorem C1_consume_state_witness :
    (consume (fun _ _ : Unit => (true, Ordering.eq)) false true
      (Except.ok (false, 0)) [] []).state = NodeState.failedState :=
  (C1_consume_state_amended (fun _ _ : Unit => (true, Ordering.eq)) true
    (Except.ok (false, 0)) [] []).mpr (Or.inr ⟨0, rfl, rfl⟩)

/-- C4 counterexample: with `ExportFixSQL = false`, a non-Empty chunk whose
checksum reports a mismatch (no error) is still emitted with state `Success`
(while `consume` itself returns `false`) — refuting "no checksum-mismatched
range ever produces a Success node, under any configuration including
`ExportFixSQL = false`". -/
theorem C4_consume_success_counterexample :
    (consume (fun _ _ : Unit => (true, Ordering.eq)) false false
      (Except.ok (false, 3)) [] []).state = NodeState.successState ∧
    (consume (fun _ _ : Unit => (true, Ordering.eq)) false false
      (Except.ok (false, 3)) [] []).isEqual = false := by
  exact ⟨rfl, rfl⟩

/-- C4 (amended): when `ExportFixSQL` is enabled, a non-Empty range whose
emitted node state is `Success` had a checksum stage that succeeded and
reported both sides equal on row count and CRC32. -/
theorem C4_consume_success_amended {Row : Type} (cmp : Row → Row → Bool × Ordering)
    (checksum : Except String (Bool × Int)) (upRows dnRows : List Row)
    (h : (consume cmp false true checksum upRows dnRows).state = NodeState.successState) :
    ∃ c, checksum = Except.ok (true, c) := by
  cases checksum with
  | error e =>
    unfold consume at h
    simp at h
  | ok p =>
    obtain ⟨isEq, c⟩ := p
    cases isEq
    · unfold consume at h
      simp at h
    · exact ⟨c, rfl⟩

/-- Concrete instantiation of `C4_consume_success_amended` at an agreeing
checksum result. -/
theorem C4_consume_success_witness :
    ∃ c, (Except.ok (true, 5) : Except String (Bool × Int)) = Except.ok (true, c) :=
  C4_consume_success_amended (fun _ _ : Unit => (true, Ordering.eq))
    (Except.ok (true, 5)) [] [] rfl

/- ---------------------------------------------------------------------------
Bisector (`Diff.binSearch`, diff.go:917-980).

The database-dependent steps are an oracle: `split` is the
`GetApproximateMidBySize` midpoint split producing the two sub-ranges
(`tableRange1`, `tableRange2`), and `checksum` is `compareChecksumAndGetCount`
on a range. `log.Fatal` sites become dedicated error values; recursion depth
is bounded by explicit fuel (the Go recursion has no such bound, so every
theorem about a single unfolding supplies fresh fuel).
--------------------------------------------------------------------------- -/

/-- Database-dependent collaborators of `binSearch` over an abstract range
type. -/
structure BinOracle (Range : Type) where
  split : Range → Range × Range
  checksum : Range → Except String (Bool × Int)

/-- How a `binSearch` run ends abnormally: a propagated checksum error, the
fatal `count1 + count2 != count` violation, the fatal "both halves equal while
the parent mismatched" case, or fuel exhaustion (an artifact of the
embedding). -/
inductive BinErr
  | checksumErr (e : String)
  | fatalCount
  | fatalBothEqual
  | fuelOut
deriving DecidableEq, Repr

/-- Embedding of `Diff.binSearch`: below the split threshold the range is
returned unchanged; otherwise the range is split at the approximate midpoint,
both sub-ranges are checksummed, the count invariant is enforced fatally, and
the `(equal1, equal2)` case analysis of the source decides between returning
the parent and recursing into the single unequal half. -/
def binSearch {Range : Type} (o : BinOracle Range) (thr : Int) :
    Nat → Range → Int → Except BinErr Range
  | 0, _, _ => Except.error BinErr.fuelOut
  | fuel + 1, tableRange, count =>
    if count ≤ thr then Except.ok tableRange
    else
      let ranges := o.split tableRange
      match o.checksum ranges.1 with
      | Except.error e => Except.error (BinErr.checksumErr e)
      | Except.ok (isEqual1, count1) =>
        match o.checksum ranges.2 with
        | Except.error e => Except.error (BinErr.checksumErr e)
        | Except.ok (isEqual2, count2) =>
          if count1 + count2 ≠ count then Except.error BinErr.fatalCount
          else if !isEqual1 && !isEqual2 then Except.ok tableRange
          else if !isEqual1 then binSearch o thr fuel ranges.1 count1
          else if !isEqual2 then binSearch o thr fuel ranges.2 count2
          else Except.error BinErr.fatalBothEqual

/-- C2: for a mismatched range that `binSearch` splits (count above the
threshold) into sub-ranges whose checksums both succeed and whose counts sum
to the parent count: if both sub-range checksums are unequal it returns the
parent unchanged; if exactly one is unequal it returns the result of recursing
on that sub-range; if both are equal the run is fatal. -/
theorem C2_binsearch_cases {Range : Type} (o : BinOracle Range) (thr : Int)
    (fuel : Nat) (tableRange : Range) (count count1 count2 : Int)
    (isEqual1 isEqual2 : Bool)
    (hthr : ¬ count ≤ thr)
    (h1 : o.checksum (o.split tableRange).1 = Except.ok (isEqual1, count1))
    (h2 : o.checksum (o.split tableRange).2 = Except.ok (isEqual2, count2))
    (hcnt : count1 + count2 = count) :
    binSearch o thr (fuel + 1) tableRange count =
      if isEqual1 = false ∧ isEqual2 = false then Except.ok tableRange
      else if isEqual1 = false then binSearch o thr fuel (o.split tableRange).1 count1
      else if isEqual2 = false then binSearch o thr fuel (o.split tableRange).2 count2
      else Except.error BinErr.fatalBothEqual := by
  rw [binSearch]
  simp only [hthr, if_false]
  rw [h1, h2]
  simp only [hcnt]
  cases isEqual1 <;> cases isEqual2 <;> simp

/-- Concrete instantiation of `C2_binsearch_cases`: with threshold 1, a parent
of count 2 splitting into two unequal halves of count 1 is returned
unchanged. -/
theorem C2_binsearch_witness :
    binSearch ⟨fun r => (r, r), fun _ => Except.ok (false, 1)⟩ 1 1 (0 : Int) 2 =
      Except.ok 0 := by
  have h := C2_binsearch_cases
    (⟨fun r => (r, r), fun _ => Except.ok (false, 1)⟩ : BinOracle Int) 1 0 0 2 1 1 false false
    (by norm_num) rfl rfl (by norm_num)
  rw [h]
  simp

/- ---------------------------------------------------------------------------
Continuous insert/update validation (`Diff.validateInsertAndUpdateRows`,
diff.go:1070-1157).

Rows carry their primary-key values and their remaining payload. The
`utils.CompareData` collaborator is modelled from the spec.
--------------------------------------------------------------------------- -/

/-- A row as the continuous validator sees it: the primary-key values
(`getPkValues`) and the rest of the payload. -/
structure CRow where
  pk : List String
  data : List String
deriving DecidableEq, Repr

/-- Lexicographic comparison of primary-key value lists, component-wise by
byte-wise string order. -/
def pkLexOrd : List String → List String → Ordering
  | [], [] => Ordering.eq
  | [], _ :: _ => Ordering.lt
  | _ :: _, [] => Ordering.gt
  | a :: as, b :: bs =>
    if a = b then pkLexOrd as bs
    else if strLt a b then Ordering.lt else Ordering.gt

/-- Modelled from the spec: `utils.CompareData` (not under `src/`) "compare by
order-key columns only: equal keys and equal row payload" yields equality;
otherwise the comparison value is the order of the key columns, one of
`-1 / 0 / 1` (`Ordering.lt / .eq / .gt`). -/
def compareData (u d : CRow) : Bool × Ordering :=
  (decide (u.pk = d.pk ∧ u.data = d.data), pkLexOrd u.pk d.pk)

/-- Embedding of `Diff.validateInsertAndUpdateRows` over the two ordered row
streams (upstream first). Downstream exhausted appends every remaining
upstream PK; upstream exhausted with data left downstream breaks without
failures; otherwise the merge marks upstream-only PKs (`cmp = -1`) and
equal-key differing-payload PKs (`cmp = 0`) as failed and skips
downstream-only rows (`cmp = 1`). -/
def validateInsertAndUpdateRows : List CRow → List CRow → List (List String)
  | us, [] => us.map (fun r => r.pk)
  | [], _ :: _ => []
  | u :: us, d :: ds =>
    match compareData u d with
    | (true, _) => validateInsertAndUpdateRows us ds
    | (false, Ordering.gt) => validateInsertAndUpdateRows (u :: us) ds
    | (false, Ordering.lt) => u.pk :: validateInsertAndUpdateRows us (d :: ds)
    | (false, Ordering.eq) => u.pk :: validateInsertAndUpdateRows us ds
termination_by us ds => us.length + ds.length

theorem pkLexOrd_eq_iff (a b : List String) : pkLexOrd a b = Ordering.eq ↔ a = b := by
  induction a generalizing b with
  | nil => cases b <;> simp [pkLexOrd]
  | cons x xs ih =>
    cases b with
    | nil => simp [pkLexOrd]
    | cons y ys =>
      unfold pkLexOrd
      by_cases hxy : x = y
      · subst hxy
        simp [ih]
      · simp only [hxy, if_false]
        by_cases hlt : strLt x y = true <;> simp [hlt, hxy]

theorem pkLexOrd_self (a : List String) : pkLexOrd a a = Ordering.eq :=
  (pkLexOrd_eq_iff a a).mpr rfl

theorem validateIU_nil_right (us : List CRow) :
    validateInsertAndUpdateRows us [] = us.map (fun r => r.pk) := by
  rw [validateInsertAndUpdateRows]

theorem validateIU_nil_left (d : CRow) (ds : List CRow) :
    validateInsertAndUpdateRows [] (d :: ds) = [] := by
  rw [validateInsertAndUpdateRows]

theorem validateIU_cons_cons (u : CRow) (us : List CRow) (d : CRow) (ds : List CRow) :
    validateInsertAndUpdateRows (u :: us) (d :: ds) =
      match compareData u d with
      | (true, _) => validateInsertAndUpdateRows us ds
      | (false, Ordering.gt) => validateInsertAndUpdateRows (u :: us) ds
      | (false, Ordering.lt) => u.pk :: validateInsertAndUpdateRows us (d :: ds)
      | (false, Ordering.eq) => u.pk :: validateInsertAndUpdateRows us ds := by
  conv_lhs => rw [validateInsertAndUpdateRows]

theorem validateIU_result_from_upstream (us ds : List CRow) :
    ∀ p ∈ validateInsertAndUpdateRows us ds, ∃ u ∈ us, u.pk = p := by
  generalize hn : us.length + ds.length = n
  induction n using Nat.strong_induction_on generalizing us ds with
  | _ n ih =>
    match us, ds with
    | us, [] =>
      rw [validateIU_nil_right]
      intro p hp
      exact List.mem_map.mp hp
    | [], d0 :: ds =>
      rw [validateIU_nil_left]
      simp
    | u0 :: us, d0 :: ds =>
      subst hn
      rw [validateIU_cons_cons]
      by_cases hP : (u0.pk = d0.pk ∧ u0.data = d0.data)
      · rw [show compareData u0 d0 = (true, pkLexOrd u0.pk d0.pk) from by
          simp [compareData, hP]]
        dsimp only
        intro p hp
        obtain ⟨u, hu, hupk⟩ := ih (us.length + ds.length)
          (by simp only [List.length_cons]; omega) us ds rfl p hp
        exact ⟨u, List.mem_cons_of_mem _ hu, hupk⟩
      · cases ho : pkLexOrd u0.pk d0.pk
        · rw [show compareData u0 d0 = (false, Ordering.lt) from by
            simp [compareData, hP, ho]]
          dsimp only
          intro p hp
          rcases List.mem_cons.mp hp with hp0 | hp1
          · exact ⟨u0, List.mem_cons_self _ _, hp0.symm⟩
          · obtain ⟨u, hu, hupk⟩ := ih (us.length + (d0 :: ds).length)
              (by simp only [List.length_cons]; omega) us (d0 :: ds) rfl p hp1
            exact ⟨u, List.mem_cons_of_mem _ hu, hupk⟩
        · rw [show compareData u0 d0 = (false, Ordering.eq) from by
            simp [compareData, hP, ho]]
          dsimp only
          intro p hp
          rcases List.mem_cons.mp hp with hp0 | hp1
          · exact ⟨u0, List.mem_cons_self _ _, hp0.symm⟩
          · obtain ⟨u, hu, hupk⟩ := ih (us.length + ds.length)
              (by simp only [List.length_cons]; omega) us ds rfl p hp1
            exact ⟨u, List.mem_cons_of_mem _ hu, hupk⟩
        · rw [show compareData u0 d0 = (false, Ordering.gt) from by
            simp [compareData, hP, ho]]
          dsimp only
          intro p hp
          exact ih ((u0 :: us).length + ds.length)
            (by simp only [List.length_cons]; omega) (u0 :: us) ds rfl p hp

theorem validateIU_mem_upstream_only (us ds : List CRow) :
    ∀ u ∈ us, (∀ d ∈ ds, d.pk ≠ u.pk) → u.pk ∈ validateInsertAndUpdateRows us ds := by
  generalize hn : us.length + ds.length = n
  induction n using Nat.strong_induction_on generalizing us ds with
  | _ n ih =>
    match us, ds with
    | us, [] =>
      rw [validateIU_nil_right]
      intro u hu _
      exact List.mem_map_of_mem _ hu
    | [], d0 :: ds =>
      simp
    | u0 :: us, d0 :: ds =>
      subst hn
      intro u hu honly
      rw [validateIU_cons_cons]
      by_cases hP : (u0.pk = d0.pk ∧ u0.data = d0.data)
      · rw [show compareData u0 d0 = (true, pkLexOrd u0.pk d0.pk) from by
          simp [compareData, hP]]
        dsimp only
        rcases List.mem_cons.mp hu with rfl | hu1
        · exact absurd hP.1.symm (honly d0 (List.mem_cons_self _ _))
        · exact ih (us.length + ds.length) (by simp only [List.length_cons]; omega)
            us ds rfl u hu1 (fun d hd => honly d (List.mem_cons_of_mem _ hd))
      · cases ho : pkLexOrd u0.pk d0.pk
        · rw [show compareData u0 d0 = (false, Ordering.lt) from by
            simp [compareData, hP, ho]]
          dsimp only
          rcases List.mem_cons.mp hu with rfl | hu1
          · exact List.mem_cons_self _ _
          · exact List.mem_cons_of_mem _
              (ih (us.length + (d0 :: ds).length) (by simp only [List.length_cons]; omega)
                us (d0 :: ds) rfl u hu1 honly)
        · rw [show compareData u0 d0 = (false, Ordering.eq) from by
            simp [compareData, hP, ho]]
          dsimp only
          rcases List.mem_cons.mp hu with rfl | hu1
          · exact List.mem_cons_self _ _
          · exact List.mem_cons_of_mem _
              (ih (us.length + ds.length) (by simp only [List.length_cons]; omega)
                us ds rfl u hu1 (fun d hd => honly d (List.mem_cons_of_mem _ hd)))
        · rw [show compareData u0 d0 = (false, Ordering.gt) from by
            simp [compareData, hP, ho]]
          dsimp only
          exact ih ((u0 :: us).length + ds.length) (by simp only [List.length_cons]; omega)
            (u0 :: us) ds rfl u hu (fun d hd => honly d (List.mem_cons_of_mem _ hd))

theorem validateIU_mem_mismatch (us ds : List CRow)
    (hus : List.Pairwise (fun a b : CRow => pkLexOrd a.pk b.pk = Ordering.lt) us)
    (hds : List.Pairwise (fun a b : CRow => pkLexOrd a.pk b.pk = Ordering.lt) ds) :
    ∀ u ∈ us, ∀ d ∈ ds, d.pk = u.pk → d.data ≠ u.data →
      u.pk ∈ validateInsertAndUpdateRows us ds := by
  generalize hn : us.length + ds.length = n
  induction n using Nat.strong_induction_on generalizing us ds with
  | _ n ih =>
    match us, ds with
    | us, [] =>
      intro u _ d hd
      exact absurd hd (List.not_mem_nil d)
    | [], d0 :: ds =>
      intro u hu
      exact absurd hu (List.not_mem_nil u)
    | u0 :: us, d0 :: ds =>
      subst hn
      obtain ⟨hu0, hus'⟩ := List.pairwise_cons.mp hus
      obtain ⟨hd0, hds'⟩ := List.pairwise_cons.mp hds
      intro u hu d hd hpk hdata
      rw [validateIU_cons_cons]
      by_cases hP : (u0.pk = d0.pk ∧ u0.data = d0.data)
      · rw [show compareData u0 d0 = (true, pkLexOrd u0.pk d0.pk) from by
          simp [compareData, hP]]
        dsimp only
        rcases List.mem_cons.mp hu with rfl | hu1
        · rcases List.mem_cons.mp hd with rfl | hd1
          · exact absurd hP.2.symm hdata
          · -- a second downstream row with d0's key contradicts strict sortedness
            have h1 := hd0 d hd1
            rw [hpk, ← hP.1, pkLexOrd_self] at h1
            exact absurd h1 (by simp)
        · rcases List.mem_cons.mp hd with rfl | hd1
          · have h1 := hu0 u hu1
            rw [← hpk, hP.1, pkLexOrd_self] at h1
            exact absurd h1 (by simp)
          · exact ih (us.length + ds.length) (by simp only [List.length_cons]; omega)
              us ds hus' hds' rfl u hu1 d hd1 hpk hdata
      · cases ho : pkLexOrd u0.pk d0.pk
        · rw [show compareData u0 d0 = (false, Ordering.lt) from by
            simp [compareData, hP, ho]]
          dsimp only
          rcases List.mem_cons.mp hu with rfl | hu1
          · exact List.mem_cons_self _ _
          · exact List.mem_cons_of_mem _
              (ih (us.length + (d0 :: ds).length) (by simp only [List.length_cons]; omega)
                us (d0 :: ds) hus' hds rfl u hu1 d hd hpk hdata)
        · rw [show compareData u0 d0 = (false, Ordering.eq) from by
            simp [compareData, hP, ho]]
          dsimp only
          rcases List.mem_cons.mp hu with rfl | hu1
          · exact List.mem_cons_self _ _
          · rcases List.mem_cons.mp hd with rfl | hd1
            · have heq : u0.pk = d.pk := (pkLexOrd_eq_iff u0.pk d.pk).mp ho
              have h1 := hu0 u hu1
              rw [← hpk, ← heq, pkLexOrd_self] at h1
              exact absurd h1 (by simp)
            · exact List.mem_cons_of_mem _
                (ih (us.length + ds.length) (by simp only [List.length_cons]; omega)
                  us ds hus' hds' rfl u hu1 d hd1 hpk hdata)
        · rw [show compareData u0 d0 = (false, Ordering.gt) from by
            simp [compareData, hP, ho]]
          dsimp only
          rcases List.mem_cons.mp hd with rfl | hd1
          · rcases List.mem_cons.mp hu with rfl | hu1
            · rw [← hpk, pkLexOrd_self] at ho
              exact absurd ho (by simp)
            · have h1 := hu0 u hu1
              rw [← hpk] at h1
              rw [h1] at ho
              exact absurd ho (by simp)
          · exact ih ((u0 :: us).length + ds.length) (by simp only [List.length_cons]; omega)
              (u0 :: us) ds hus hds' rfl u hu d hd1 hpk hdata

/-- C5 counterexample: a primary key present only downstream is skipped, not
reported — with no upstream rows and one downstream row, the returned failed
rows are empty, refuting "present only downstream ... is included in the
returned failed rows". -/
theorem C5_validate_iu_counterexample :
    validateInsertAndUpdateRows [] [⟨["7"], ["x"]⟩] = [] ∧
    (⟨["7"], ["x"]⟩ : CRow).pk ∉ validateInsertAndUpdateRows [] [⟨["7"], ["x"]⟩] := by
  constructor
  · exact validateIU_nil_left _ _
  · rw [validateIU_nil_left]
    simp

/-- C5 (amended): for PK-sorted duplicate-free sides, every primary key
present only upstream, and every primary key present on both sides with
differing payload, is included in the returned failed rows; every failed row
is the PK of some upstream row — but a PK present only downstream is skipped
(the source deliberately treats extra downstream rows as data from other
clients or not-yet-validated deletes). -/
theorem C5_validate_iu_amended (us ds : List CRow)
    (hus : List.Pairwise (fun a b : CRow => pkLexOrd a.pk b.pk = Ordering.lt) us)
    (hds : List.Pairwise (fun a b : CRow => pkLexOrd a.pk b.pk = Ordering.lt) ds) :
    (∀ u ∈ us, (∀ d ∈ ds, d.pk ≠ u.pk) → u.pk ∈ validateInsertAndUpdateRows us ds) ∧
    (∀ u ∈ us, ∀ d ∈ ds, d.pk = u.pk → d.data ≠ u.data →
      u.pk ∈ validateInsertAndUpdateRows us ds) ∧
    (∀ p ∈ validateInsertAndUpdateRows us ds, ∃ u ∈ us, u.pk = p) :=
  ⟨validateIU_mem_upstream_only us ds, validateIU_mem_mismatch us ds hus hds,
    validateIU_result_from_upstream us ds⟩

/-- Concrete instantiation of `C5_validate_iu_amended`: a key present on both
sides with differing payload is reported. -/
theorem C5_validate_iu_witness :
    (["2"] : List String) ∈
      validateInsertAndUpdateRows [⟨["2"], ["b"]⟩] [⟨["2"], ["c"]⟩] :=
  (C5_validate_iu_amended [⟨["2"], ["b"]⟩] [⟨["2"], ["c"]⟩] (by simp) (by simp)).2.1
    ⟨["2"], ["b"]⟩ (by simp) ⟨["2"], ["c"]⟩ (by simp) rfl (by simp)

/- ---------------------------------------------------------------------------
Continuous-mode accumulator (`Diff.processEventRows`, diff.go:489-570).

One batch of the accumulator is modelled: the rows of the incoming events
(update events already reduced to their after-images by the stride-2 walk),
each with its change type and header timestamp, folded into the per-table
`rows` map. The Go map is an association list; `pkValue[idx] = row[idx]`
writes out of range (a Go panic) become `none`.
--------------------------------------------------------------------------- -/

/-- The `rowChangeType` enumeration of the source. -/
inductive RowChangeType
  | rowInvalidChange
  | rowInsert
  | rowDeleted
  | rowUpdated
deriving DecidableEq, Repr

/-- One row observed in a rows event: the formatted column values
(`fmt.Sprintf("%v", v)` per column), the change type derived from the event
header, and the header timestamp. -/
structure RowEventM where
  row : List String
  typ : RowChangeType
  ts : Int
deriving DecidableEq, Repr

/-- The source's `rowChange` record. -/
structure RowChangeM where
  pk : List String
  data : List String
  theType : RowChangeType
  lastMeetTs : Int
deriving DecidableEq, Repr

/-- The `pkValue` construction of `processEventRows`: an array of length
`n = len(pk.Columns)` initialized empty, then `pkValue[idx] = row[idx]` for
each primary-key column offset `idx`; an offset outside the array or the row
is a Go panic, embedded as `none`. -/
def mkPkValue (n : Nat) (pkIndices : List Nat) (row : List String) :
    Option (List String) :=
  pkIndices.foldl
    (fun acc idx =>
      match acc with
      | none => none
      | some v =>
        match row.get? idx with
        | none => none
        | some x => if idx < v.length then some (v.set idx x) else none)
    (some (List.replicate n ""))

/-- The map key of a row: `strings.Join(pkValue, "-")`. -/
def rowKey (pkValue : List String) : String := strJoin "-" pkValue

/-- Insert-or-overwrite of one event into the `rows` association list: a
fresh entry keeps the event's `pkValue` as `pk`; an existing entry keeps its
`pk` and gets `data`, `theType` and `lastMeetTs` overwritten, exactly as the
source mutates the shared `*rowChange`. -/
def updateRows (key : String) (pkValue : List String) (ev : RowEventM) :
    List (String × RowChangeM) → List (String × RowChangeM)
  | [] => [(key, ⟨pkValue, ev.row, ev.typ, ev.ts⟩)]
  | (k, rc) :: rest =>
    if k = key then (k, ⟨rc.pk, ev.row, ev.typ, ev.ts⟩) :: rest
    else (k, rc) :: updateRows key pkValue ev rest

/-- One accumulator batch: fold the events of the batch into the `rows` map
in order. A failing `pkValue` construction is the Go panic. -/
def processEventRowsBatch (n : Nat) (pkIndices : List Nat) :
    List RowEventM → List (String × RowChangeM) → Option (List (String × RowChangeM))
  | [], rows => some rows
  | ev :: evs, rows =>
    match mkPkValue n pkIndices ev.row with
    | none => none
    | some pkValue =>
      processEventRowsBatch n pkIndices evs (updateRows (rowKey pkValue) pkValue ev rows)

/-- The key an event is stored under, when its `pkValue` builds. -/
def keyOfEvent (n : Nat) (pkIndices : List Nat) (ev : RowEventM) : Option String :=
  (mkPkValue n pkIndices ev.row).map rowKey

/-- The last event of the batch stored under key `k`. -/
def lastEventFor (n : Nat) (pkIndices : List Nat) (k : String)
    (evs : List RowEventM) : Option RowEventM :=
  evs.reverse.find? (fun e => keyOfEvent n pkIndices e == some k)

/-- Lookup in the `rows` association list. -/
def findRow (k : String) : List (String × RowChangeM) → Option RowChangeM
  | [] => none
  | (k', rc) :: rest => if k' = k then some rc else findRow k rest

/-- Number of entries stored under key `k`. -/
def countKey (k : String) (rows : List (String × RowChangeM)) : Nat :=
  (rows.filter (fun p => p.1 = k)).length

/-- The keys of the `rows` association list. -/
def keysOf (rows : List (String × RowChangeM)) : List String := rows.map Prod.fst

theorem findRow_updateRows_same (key : String) (pkValue : List String)
    (ev : RowEventM) (rows : List (String × RowChangeM)) :
    ∃ rc, findRow key (updateRows key pkValue ev rows) = some rc ∧
      rc.data = ev.row ∧ rc.theType = ev.typ ∧ rc.lastMeetTs = ev.ts := by
  induction rows with
  | nil => exact ⟨⟨pkValue, ev.row, ev.typ, ev.ts⟩, by simp [updateRows, findRow]⟩
  | cons p rest ih =>
    obtain ⟨k, rc⟩ := p
    by_cases hk : k = key
    · exact ⟨⟨rc.pk, ev.row, ev.typ, ev.ts⟩, by simp [updateRows, findRow, hk]⟩
    · obtain ⟨rc', h1, h2⟩ := ih
      exact ⟨rc', by simp [updateRows, findRow, hk, h1], h2⟩

theorem findRow_updateRows_ne {k key : String} (hne : k ≠ key)
    (pkValue : List String) (ev : RowEventM) (rows : List (String × RowChangeM)) :
    findRow k (updateRows key pkValue ev rows) = findRow k rows := by
  induction rows with
  | nil => simp [updateRows, findRow, Ne.symm hne]
  | cons p rest ih =>
    obtain ⟨k', rc⟩ := p
    by_cases hk : k' = key
    · subst hk
      simp [updateRows, findRow, Ne.symm hne]
    · simp [updateRows, findRow, hk, ih]

theorem countKey_cons_same (k : String) (rc : RowChangeM)
    (rest : List (String × RowChangeM)) :
    countKey k ((k, rc) :: rest) = countKey k rest + 1 := by
  simp [countKey, List.filter]

theorem countKey_cons_ne {k k' : String} (h : k' ≠ k) (rc : RowChangeM)
    (rest : List (String × RowChangeM)) :
    countKey k ((k', rc) :: rest) = countKey k rest := by
  simp [countKey, List.filter, h]

theorem keysOf_updateRows (key : String) (pkValue : List String) (ev : RowEventM)
    (rows : List (String × RowChangeM)) (x : String) :
    x ∈ keysOf (updateRows key pkValue ev rows) ↔ x = key ∨ x ∈ keysOf rows := by
  induction rows with
  | nil => simp [updateRows, keysOf]
  | cons p rest ih =>
    obtain ⟨k, rc⟩ := p
    by_cases hk : k = key
    · subst hk
      simp only [updateRows, eq_self_iff_true, if_true, keysOf, List.map_cons, List.mem_cons]
      tauto
    · simp only [updateRows, if_neg hk, keysOf, List.map_cons, List.mem_cons]
      have ih' : x ∈ List.map Prod.fst (updateRows key pkValue ev rest) ↔
          x = key ∨ x ∈ List.map Prod.fst rest := ih
      rw [ih']
      tauto

theorem nodup_keys_updateRows (key : String) (pkValue : List String) (ev : RowEventM)
    (rows : List (String × RowChangeM)) (h : (keysOf rows).Nodup) :
    (keysOf (updateRows key pkValue ev rows)).Nodup := by
  induction rows with
  | nil => simp [updateRows, keysOf]
  | cons p rest ih =>
    obtain ⟨k, rc⟩ := p
    simp only [keysOf, List.map_cons, List.nodup_cons] at h
    by_cases hk : k = key
    · subst hk
      simp only [updateRows, eq_self_iff_true, if_true, keysOf, List.map_cons, List.nodup_cons]
      exact h
    · simp only [updateRows, if_neg hk, keysOf, List.map_cons, List.nodup_cons]
      refine ⟨?_, ih h.2⟩
      intro hmem
      rcases (keysOf_updateRows key pkValue ev rest k).mp hmem with rfl | h2
      · exact hk rfl
      · exact h.1 h2

theorem countKey_notmem (k : String) (rows : List (String × RowChangeM))
    (h : k ∉ keysOf rows) : countKey k rows = 0 := by
  induction rows with
  | nil => rfl
  | cons p rest ih =>
    obtain ⟨k', rc⟩ := p
    simp only [keysOf, List.map_cons, List.mem_cons] at h
    push_neg at h
    rw [countKey_cons_ne (Ne.symm h.1)]
    exact ih h.2

theorem countKey_eq_one (k : String) (rows : List (String × RowChangeM))
    (hnd : (keysOf rows).Nodup) (rc : RowChangeM) (h : findRow k rows = some rc) :
    countKey k rows = 1 := by
  induction rows with
  | nil => simp [findRow] at h
  | cons p rest ih =>
    obtain ⟨k', rc'⟩ := p
    simp only [keysOf, List.map_cons, List.nodup_cons] at hnd
    simp only [findRow] at h
    by_cases hk : k' = k
    · subst hk
      rw [countKey_cons_same]
      rw [countKey_notmem k' rest hnd.1]
    · rw [if_neg hk] at h
      rw [countKey_cons_ne hk]
      exact ih hnd.2 h

theorem findSome_append {α : Type} (p : α → Bool) (l1 l2 : List α) :
    (l1 ++ l2).find? p =
      match l1.find? p with
      | some a => some a
      | none => l2.find? p := by
  induction l1 with
  | nil => simp [List.find?]
  | cons a l ih =>
    by_cases h : p a
    · simp [List.find?, h]
    · simp only [List.cons_append, List.find?, Bool.not_eq_true] at *
      rw [show p a = false from by simpa using h]
      exact ih

theorem lastEventFor_nil (n : Nat) (pkIndices : List Nat) (k : String) :
    lastEventFor n pkIndices k [] = none := rfl

theorem lastEventFor_cons (n : Nat) (pkIndices : List Nat) (k : String)
    (ev : RowEventM) (evs : List RowEventM) :
    lastEventFor n pkIndices k (ev :: evs) =
      match lastEventFor n pkIndices k evs with
      | some e => some e
      | none => if keyOfEvent n pkIndices ev == some k then some ev else none := by
  unfold lastEventFor
  rw [List.reverse_cons, findSome_append]
  cases evs.reverse.find? (fun e => keyOfEvent n pkIndices e == some k) with
  | none =>
    dsimp only
    by_cases h : keyOfEvent n pkIndices ev == some k <;> simp [List.find?, h]
  | some e => rfl

theorem lastEventFor_mem (n : Nat) (pkIndices : List Nat) (k : String)
    (evs : List RowEventM) (ev : RowEventM) (hm : ev ∈ evs)
    (hk : keyOfEvent n pkIndices ev = some k) :
    ∃ e, lastEventFor n pkIndices k evs = some e := by
  induction evs with
  | nil => exact absurd hm (List.not_mem_nil ev)
  | cons ev0 evs ih =>
    rw [lastEventFor_cons]
    rcases List.mem_cons.mp hm with rfl | hm1
    · cases h : lastEventFor n pkIndices k evs with
      | some e => exact ⟨e, rfl⟩
      | none =>
        dsimp only
        rw [show (keyOfEvent n pkIndices ev == some k) = true from by simp [hk]]
        exact ⟨ev, rfl⟩
    · obtain ⟨e, he⟩ := ih hm1
      rw [he]
      exact ⟨e, rfl⟩

theorem processBatch_findRow (n : Nat) (pkIndices : List Nat) :
    ∀ (evs : List RowEventM) (rows res : List (String × RowChangeM)),
      processEventRowsBatch n pkIndices evs rows = some res →
      ∀ k : String,
        (∀ e, lastEventFor n pkIndices k evs = some e →
          ∃ rc, findRow k res = some rc ∧
            rc.data = e.row ∧ rc.theType = e.typ ∧ rc.lastMeetTs = e.ts) ∧
        (lastEventFor n pkIndices k evs = none → findRow k res = findRow k rows) := by
  intro evs
  induction evs with
  | nil =>
    intro rows res h k
    simp only [processEventRowsBatch, Option.some.injEq] at h
    subst h
    constructor
    · intro e he
      rw [lastEventFor_nil] at he
      exact absurd he (by simp)
    · intro _
      rfl
  | cons ev evs ih =>
    intro rows res h k
    simp only [processEventRowsBatch] at h
    cases hpk : mkPkValue n pkIndices ev.row with
    | none => rw [hpk] at h; exact absurd h (by simp)
    | some pkv =>
      rw [hpk] at h
      dsimp only at h
      have hkey : keyOfEvent n pkIndices ev = some (rowKey pkv) := by
        simp [keyOfEvent, hpk]
      have IH := ih (updateRows (rowKey pkv) pkv ev rows) res h k
      constructor
      · intro e he
        rw [lastEventFor_cons] at he
        cases hl : lastEventFor n pkIndices k evs with
        | some e' =>
          rw [hl] at he
          dsimp only at he
          obtain rfl : e' = e := by injection he
          exact IH.1 e' hl
        | none =>
          rw [hl] at he
          dsimp only at he
          rw [hkey] at he
          by_cases hkk : rowKey pkv = k
          · rw [show ((some (rowKey pkv) : Option String) == some k) = true from by
              simp [hkk]] at he
            simp only [if_true] at he
            cases he
            rw [IH.2 hl]
            subst hkk
            exact findRow_updateRows_same (rowKey pkv) pkv ev rows
          · rw [show ((some (rowKey pkv) : Option String) == some k) = false from by
              simp [hkk]] at he
            simp at he
      · intro he
        rw [lastEventFor_cons] at he
        cases hl : lastEventFor n pkIndices k evs with
        | some e' => rw [hl] at he; exact absurd he (by simp)
        | none =>
          rw [hl] at he
          dsimp only at he
          rw [hkey] at he
          by_cases hkk : rowKey pkv = k
          · rw [show ((some (rowKey pkv) : Option String) == some k) = true from by
              simp [hkk]] at he
            simp at he
          · rw [IH.2 hl]
            exact findRow_updateRows_ne (fun hh => hkk hh.symm) pkv ev rows

theorem processBatch_nodup (n : Nat) (pkIndices : List Nat) :
    ∀ (evs : List RowEventM) (rows res : List (String × RowChangeM)),
      processEventRowsBatch n pkIndices evs rows = some res →
      (keysOf rows).Nodup → (keysOf res).Nodup := by
  intro evs
  induction evs with
  | nil =>
    intro rows res h hnd
    simp only [processEventRowsBatch, Option.some.injEq] at h
    subst h
    exact hnd
  | cons ev evs ih =>
    intro rows res h hnd
    simp only [processEventRowsBatch] at h
    cases hpk : mkPkValue n pkIndices ev.row with
    | none => rw [hpk] at h; exact absurd h (by simp)
    | some pkv =>
      rw [hpk] at h
      dsimp only at h
      exact ih _ res h (nodup_keys_updateRows (rowKey pkv) pkv ev rows hnd)

/-- C6: within one accumulator batch that processes without panic, every
observed primary key — keyed by the `"-"`-join of the `pkValue` built with one
entry per primary-key column — has exactly one `rowChange` entry in the batch
map, and that entry's `data`, `theType` and `lastMeetTs` equal those of the
last event observed for that key. -/
theorem C6_accumulator_coalesces (n : Nat) (pkIndices : List Nat)
    (evs : List RowEventM) (res : List (String × RowChangeM))
    (h : processEventRowsBatch n pkIndices evs [] = some res) :
    ∀ ev ∈ evs, ∀ pkv, mkPkValue n pkIndices ev.row = some pkv →
      countKey (strJoin "-" pkv) res = 1 ∧
      ∃ e rc, lastEventFor n pkIndices (strJoin "-" pkv) evs = some e ∧
        findRow (strJoin "-" pkv) res = some rc ∧
        rc.data = e.row ∧ rc.theType = e.typ ∧ rc.lastMeetTs = e.ts := by
  intro ev hm pkv hpk
  have hkey : keyOfEvent n pkIndices ev = some (strJoin "-" pkv) := by
    simp [keyOfEvent, hpk, rowKey]
  obtain ⟨e, he⟩ := lastEventFor_mem n pkIndices _ evs ev hm hkey
  obtain ⟨rc, hrc, hd1, hd2, hd3⟩ := (processBatch_findRow n pkIndices evs [] res h _).1 e he
  have hnd : (keysOf res).Nodup :=
    processBatch_nodup n pkIndices evs [] res h (by simp [keysOf])
  exact ⟨countKey_eq_one _ res hnd rc hrc, e, rc, he, hrc, hd1, hd2, hd3⟩

/-- Concrete instantiation of `C6_accumulator_coalesces`: two events on the
same primary key within one batch leave exactly one entry, holding the second
event's row, type and timestamp. -/
theorem C6_accumulator_witness :
    countKey "5"
      [("5", (⟨["5"], ["5", "b"], RowChangeType.rowUpdated, 11⟩ : RowChangeM))] = 1 ∧
    ∃ e rc,
      lastEventFor 1 [0] "5"
        [⟨["5", "a"], RowChangeType.rowInsert, 10⟩,
         ⟨["5", "b"], RowChangeType.rowUpdated, 11⟩] = some e ∧
      findRow "5"
        [("5", ⟨["5"], ["5", "b"], RowChangeType.rowUpdated, 11⟩)] = some rc ∧
      rc.data = e.row ∧ rc.theType = e.typ ∧ rc.lastMeetTs = e.ts :=
  C6_accumulator_coalesces 1 [0]
    [⟨["5", "a"], RowChangeType.rowInsert, 10⟩,
     ⟨["5", "b"], RowChangeType.rowUpdated, 11⟩]
    [("5", ⟨["5"], ["5", "b"], RowChangeType.rowUpdated, 11⟩)]
    (by decide)
    ⟨["5", "b"], RowChangeType.rowUpdated, 11⟩ (by simp) ["5"] (by decide)

/- ---------------------------------------------------------------------------
Row-change iterator ordering (`Diff.getRowChangeIterator`, diff.go:1039-1068).

The `sort.Slice` call is modelled as insertion sort with the source's `less`
closure (Go guarantees a sorted permutation, unspecified algorithm); the
per-row column-map construction is abstracted to the row's data, one iterator
row per rowChange.
--------------------------------------------------------------------------- -/

/-- The `less` closure passed to `sort.Slice`: walk the components of the
left pk; at the first differing component compare the two strings with Go's
byte-wise `<`; slices that never differ on the walked components are not
less. -/
def pkLess : List String → List String → Bool
  | [], _ => false
  | _ :: _, [] => false
  | a :: as, b :: bs => if a ≠ b then strLt a b else pkLess as bs

/-- Insert one rowChange into a run sorted by `pkLess`. -/
def rowsInsert (x : RowChangeM) : List RowChangeM → List RowChangeM
  | [] => [x]
  | y :: ys => if pkLess y.pk x.pk then y :: rowsInsert x ys else x :: y :: ys

/-- The `sort.Slice` step of `getRowChangeIterator`. -/
def sortRowChanges : List RowChangeM → List RowChangeM
  | [] => []
  | x :: xs => rowsInsert x (sortRowChanges xs)

/-- Embedding of `Diff.getRowChangeIterator`: the `SimpleRowsIterator` yields
one row (built from the rowChange's data) per input rowChange, in `pkLess`
order. -/
def getRowChangeIterator (rows : List RowChangeM) : List (List String) :=
  (sortRowChanges rows).map (fun r => r.data)

theorem charListLt_asymm : ∀ {a b : List Char},
    charListLt a b = true → charListLt b a = false := by
  intro a
  induction a with
  | nil =>
    intro b h
    cases b with
    | nil => simp [charListLt] at h
    | cons y ys => simp [charListLt]
  | cons x xs ih =>
    intro b h
    cases b with
    | nil => simp [charListLt] at h
    | cons y ys =>
      simp only [charListLt] at h ⊢
      by_cases hxy : x < y
      · rw [if_neg (lt_asymm hxy), if_pos hxy]
      · rw [if_neg hxy] at h
        by_cases hyx : y < x
        · rw [if_pos hyx] at h
          exact absurd h (by simp)
        · rw [if_neg hyx] at h
          rw [if_neg hyx, if_neg hxy]
          exact ih h

theorem strLt_asymm {a b : String} (h : strLt a b = true) : strLt b a = false :=
  charListLt_asymm h

theorem pkLess_asymm : ∀ {a b : List String},
    pkLess a b = true → pkLess b a = false := by
  intro a
  induction a with
  | nil => intro b h; simp [pkLess] at h
  | cons x xs ih =>
    intro b h
    cases b with
    | nil => simp [pkLess] at h
    | cons y ys =>
      simp only [pkLess] at h ⊢
      by_cases hxy : x = y
      · subst hxy
        rw [if_neg (fun hc : x ≠ x => hc rfl)] at h
        rw [if_neg (fun hc : x ≠ x => hc rfl)]
        exact ih h
      · rw [if_pos hxy] at h
        rw [if_pos (Ne.symm hxy)]
        exact strLt_asymm h

theorem rowsInsert_perm (x : RowChangeM) (ys : List RowChangeM) :
    (rowsInsert x ys).Perm (x :: ys) := by
  induction ys with
  | nil => exact List.Perm.refl _
  | cons y ys ih =>
    simp only [rowsInsert]
    by_cases h : pkLess y.pk x.pk
    · rw [if_pos h]
      exact (ih.cons y).trans (List.Perm.swap x y ys)
    · rw [if_neg h]

theorem sortRowChanges_perm (rows : List RowChangeM) :
    (sortRowChanges rows).Perm rows := by
  induction rows with
  | nil => exact List.Perm.refl _
  | cons x xs ih =>
    exact (rowsInsert_perm x (sortRowChanges xs)).trans (ih.cons x)

theorem chain'_rowsInsert (x : RowChangeM) (ys : List RowChangeM)
    (h : List.Chain' (fun a b : RowChangeM => pkLess b.pk a.pk = false) ys) :
    List.Chain' (fun a b : RowChangeM => pkLess b.pk a.pk = false) (rowsInsert x ys) := by
  induction ys with
  | nil => simp [rowsInsert]
  | cons y ys ih =>
    simp only [rowsInsert]
    by_cases hless : pkLess y.pk x.pk
    · rw [if_pos hless]
      rw [List.chain'_cons'] at h
      refine List.chain'_cons'.mpr ⟨?_, ih h.2⟩
      intro b hb
      cases ys with
      | nil =>
        simp only [rowsInsert, List.head?_cons, Option.mem_def, Option.some.injEq] at hb
        subst hb
        exact pkLess_asymm hless
      | cons y' ys' =>
        simp only [rowsInsert] at hb
        by_cases h2 : pkLess y'.pk x.pk
        · rw [if_pos h2] at hb
          simp only [List.head?_cons, Option.mem_def, Option.some.injEq] at hb
          subst hb
          exact h.1 y' (by simp)
        · rw [if_neg h2] at hb
          simp only [List.head?_cons, Option.mem_def, Option.some.injEq] at hb
          subst hb
          exact pkLess_asymm hless
    · rw [if_neg hless]
      exact List.chain'_cons.mpr ⟨by simpa using hless, h⟩

theorem sortRowChanges_chain' (rows : List RowChangeM) :
    List.Chain' (fun a b : RowChangeM => pkLess b.pk a.pk = false) (sortRowChanges rows) := by
  induction rows with
  | nil => simp [sortRowChanges]
  | cons x xs ih => exact chain'_rowsInsert x (sortRowChanges xs) ih

/-- C10: `getRowChangeIterator` yields exactly one row per input rowChange
(the sorted list is a permutation of the input, one data row per entry), in
non-decreasing order of the `sort.Slice` comparator — component-wise
lexicographic byte-wise string comparison of the pk slices — under which
numeric keys order as strings: `["10"]` precedes `["9"]`. -/
theorem C10_row_iterator_sorted (rows : List RowChangeM) :
    (sortRowChanges rows).Perm rows ∧
    List.Chain' (fun a b : RowChangeM => pkLess b.pk a.pk = false) (sortRowChanges rows) ∧
    getRowChangeIterator rows = (sortRowChanges rows).map (fun r => r.data) ∧
    (getRowChangeIterator rows).length = rows.length ∧
    pkLess ["10"] ["9"] = true ∧ pkLess ["9"] ["10"] = false := by
  refine ⟨sortRowChanges_perm rows, sortRowChanges_chain' rows, rfl, ?_, by decide, by decide⟩
  simp only [getRowChangeIterator, List.length_map]
  exact (sortRowChanges_perm rows).length_eq

/- ---------------------------------------------------------------------------
Stale fix-SQL purge (`Diff.removeSQLFiles`, diff.go:1319-1384).

The `filepath.Walk` over `FixSQLDir` becomes a fold over the visited entries
in walk order (each with its path relative to `FixSQLDir`, its base name and
whether it is a directory). A move into the fresh `.trash-<timestamp>`
directory is recorded by the file's relative path (the rename target is that
path under the trash directory). `filepath.Join` is modelled as separator
concatenation.
--------------------------------------------------------------------------- -/

/-- Modelled from the spec: `chunk.ChunkID` (not under `src/`) is the tuple
`(TableIndex, BucketIndexLeft, BucketIndexRight, ChunkIndex, ChunkCnt)`,
lexicographically ordered, with a total `Compare`. -/
structure ChunkID where
  tableIndex : Int
  bucketIndexLeft : Int
  bucketIndexRight : Int
  chunkIndex : Int
  chunkCnt : Int
deriving DecidableEq, Repr

/-- Three-way comparison of integers as a Go-style sign. -/
def cmpInt (a b : Int) : Int := if a < b then -1 else if b < a then 1 else 0

/-- Modelled from the spec: lexicographic `ChunkID.Compare` over the tuple. -/
def ChunkID.compare (a b : ChunkID) : Int :=
  if cmpInt a.tableIndex b.tableIndex ≠ 0 then cmpInt a.tableIndex b.tableIndex
  else if cmpInt a.bucketIndexLeft b.bucketIndexLeft ≠ 0 then
    cmpInt a.bucketIndexLeft b.bucketIndexLeft
  else if cmpInt a.bucketIndexRight b.bucketIndexRight ≠ 0 then
    cmpInt a.bucketIndexRight b.bucketIndexRight
  else if cmpInt a.chunkIndex b.chunkIndex ≠ 0 then cmpInt a.chunkIndex b.chunkIndex
  else cmpInt a.chunkCnt b.chunkCnt

/-- One entry the walk visits: path relative to `FixSQLDir`, base name, and
directory flag. -/
structure FileEntry where
  relPath : String
  name : String
  isDir : Bool
deriving DecidableEq, Repr

/-- `filepath.Join` of two path fragments. -/
def strPathJoin (a b : String) : String := ⟨a.data ++ '/' :: b.data⟩

/-- The cutset of Go's `strings.TrimRight(name, ".sql")`. -/
def sqlCutset : List Char := ['.', 's', 'q', 'l']

/-- The filename analysis of `removeSQLFiles`: for a name ending in `.sql`,
trim trailing cutset characters and `SplitN` on `":"` with limit 3; when that
yields three fields, the third is handed to
`utils.GetChunkIDFromSQLFileName`. -/
def sqlFileMatch (f : FileEntry) : Option String :=
  if strEndsWith f.name ".sql" then
    match splitNChar ':' 3 (goTrimRight f.name sqlCutset).data with
    | [_, _, p3] => some (String.mk p3)
    | _ => none
  else none

/-- Embedding of `Diff.removeSQLFiles`, parametrized by the decoder
(modelled from the spec: `utils.GetChunkIDFromSQLFileName` is not under
`src/`; it decodes the encoded chunk ID and may fail). Directories are
skipped; paths containing `.trash` are skipped; a `.sql` name whose trimmed
form does not split into three fields is skipped; a failing decode aborts the
walk with that error; a decoded ID comparing greater than the checkpoint
floor is moved to the trash directory. -/
def removeSQLFiles (decode : String → Except String ChunkID) (fixDir : String)
    (floor : ChunkID) : List FileEntry → Except String (List String)
  | [] => Except.ok []
  | f :: fs =>
    if f.isDir then removeSQLFiles decode fixDir floor fs
    else if strContains (strPathJoin fixDir f.relPath) ".trash" then
      removeSQLFiles decode fixDir floor fs
    else
      match sqlFileMatch f with
      | some idStr =>
        match decode idStr with
        | Except.error e => Except.error e
        | Except.ok fileID =>
          if fileID.compare floor > 0 then
            match removeSQLFiles decode fixDir floor fs with
            | Except.error e => Except.error e
            | Except.ok moved => Except.ok (f.relPath :: moved)
          else removeSQLFiles decode fixDir floor fs
      | none => removeSQLFiles decode fixDir floor fs

/-- The condition under which `removeSQLFiles` moves a file: a non-directory
entry whose joined path does not contain `.trash`, whose name matches the
`.sql` three-field pattern, and whose decoded ID compares greater than the
floor. -/
def moveCond (decode : String → Except String ChunkID) (fixDir : String)
    (floor : ChunkID) (f : FileEntry) : Bool :=
  !f.isDir && !(strContains (strPathJoin fixDir f.relPath) ".trash") &&
    (match sqlFileMatch f with
     | none => false
     | some idStr =>
       match decode idStr with
       | Except.error _ => false
       | Except.ok fileID => decide (fileID.compare floor > 0))

/-- C8 (amended): on a walk in which every file that reaches the decoding
step decodes successfully, `removeSQLFiles` moves exactly the files matching
the move condition (non-directory, joined path without the substring
`.trash`, `.sql` three-field name, decoded ID greater than the floor), in
walk order, and leaves every other file in place. A file whose third field
fails to decode instead aborts the walk with that error, leaving the
remaining files unmoved, and the `.trash` exclusion is a substring test on
the joined path, not a subtree test. -/
theorem C8_remove_sql_amended (decode : String → Except String ChunkID)
    (fixDir : String) (floor : ChunkID) (files : List FileEntry)
    (hdec : ∀ f ∈ files, f.isDir = false →
      strContains (strPathJoin fixDir f.relPath) ".trash" = false →
      ∀ idStr, sqlFileMatch f = some idStr → ∃ id, decode idStr = Except.ok id) :
    removeSQLFiles decode fixDir floor files =
      Except.ok ((files.filter (moveCond decode fixDir floor)).map
        (fun f => f.relPath)) := by
  induction files with
  | nil => rfl
  | cons f fs ih =>
    have IH := ih (fun g hg => hdec g (List.mem_cons_of_mem f hg))
    rw [removeSQLFiles]
    by_cases hd : f.isDir = true
    · have hmc : moveCond decode fixDir floor f = false := by
        simp [moveCond, hd]
      rw [if_pos hd]
      simp only [List.filter, hmc]
      exact IH
    · have hd' : f.isDir = false := by
        cases hfd : f.isDir
        · rfl
        · exact absurd hfd hd
      rw [if_neg hd]
      by_cases ht : strContains (strPathJoin fixDir f.relPath) ".trash" = true
      · have hmc : moveCond decode fixDir floor f = false := by
          simp [moveCond, ht]
        rw [if_pos ht]
        simp only [List.filter, hmc]
        exact IH
      · have ht' : strContains (strPathJoin fixDir f.relPath) ".trash" = false := by
          cases hct : strContains (strPathJoin fixDir f.relPath) ".trash"
          · rfl
          · exact absurd hct ht
        rw [if_neg ht]
        cases hm : sqlFileMatch f with
        | none =>
          have hmc : moveCond decode fixDir floor f = false := by
            simp [moveCond, hm]
          dsimp only
          simp only [List.filter, hmc]
          exact IH
        | some idStr =>
          obtain ⟨id, hid⟩ := hdec f (List.mem_cons_self f fs) hd' ht' idStr hm
          dsimp only
          rw [hid]
          dsimp only
          by_cases hcmp : id.compare floor > 0
          · have hmc : moveCond decode fixDir floor f = true := by
              simp [moveCond, hd', ht', hm, hid, hcmp]
            rw [if_pos hcmp, IH]
            simp only [List.filter, hmc, List.map]
          · have hmc : moveCond decode fixDir floor f = false := by
              simp [moveCond, hm, hid, hcmp]
            rw [if_neg hcmp]
            simp only [List.filter, hmc]
            exact IH

/-- The floor used in the counterexample and witness runs: the initial
checkpoint ID. -/
def floorZero : ChunkID := ⟨0, 0, 0, 0, 0⟩

/-- A decoder fixture: `"good"` decodes, anything else fails. -/
def decodeFx (s : String) : Except String ChunkID :=
  if s = "good" then Except.ok ⟨1, 0, 0, 0, 0⟩ else Except.error "bad chunk id"

/-- A `.sql` file whose ID field does not decode. -/
def fileBad : FileEntry := ⟨"a:b:bad.sql", "a:b:bad.sql", false⟩

/-- A `.sql` file whose ID decodes to a ChunkID above `floorZero`. -/
def fileGood : FileEntry := ⟨"c:d:good.sql", "c:d:good.sql", false⟩

/-- C8 counterexample: with an undecodable `.sql` file earlier in walk order,
the walk aborts with the decode error and the later decodable file with ID
above the floor — which the claim says is moved — is left in place, so
`removeSQLFiles` does not move exactly the matching files. -/
theorem C8_remove_sql_counterexample :
    removeSQLFiles decodeFx "fixdir" floorZero [fileBad, fileGood] =
      Except.error "bad chunk id" ∧
    moveCond decodeFx "fixdir" floorZero fileGood = true ∧
    (([fileBad, fileGood].filter (moveCond decodeFx "fixdir" floorZero)).map
      (fun f => f.relPath)) = ["c:d:good.sql"] := by
  refine ⟨rfl, rfl, rfl⟩

/-- Concrete instantiation of `C8_remove_sql_amended`: a single decodable
file above the floor is moved, and nothing else. -/
theorem C8_remove_sql_witness :
    removeSQLFiles decodeFx "fixdir" floorZero [fileGood] =
      Except.ok ["c:d:good.sql"] := by
  have h := C8_remove_sql_amended decodeFx "fixdir" floorZero [fileGood] ?hdec
  · rw [h]
    rfl
  case hdec =>
    intro f hf hd ht idStr hm
    have hf' : f = fileGood := by simpa using hf
    subst hf'
    have hms : sqlFileMatch fileGood = some "good" := rfl
    rw [hms] at hm
    have : idStr = "good" := by injection hm with hh; exact hh.symm
    subst this
    exact ⟨⟨1, 0, 0, 0, 0⟩, rfl⟩
